import Mathlib

/-!
Verification of the parallel data-processing engine in `Num3/ParallelProcessor.cpp`.

The C++ class `ParallelProcessor<T>` owns a `std::vector<T> data` and an
`unsigned int num_threads`.  Every public operation partitions the index space
`[0, N)` (`N = data.size()`) into `num_threads` contiguous half-open ranges
(`chunk_size = N / num_threads`; thread `i` gets `[i*chunk_size, (i+1)*chunk_size)`
except the last thread, whose range ends at `N`) and runs one worker per range.

Shallow embedding conventions used below:
* `std::vector<T>` is modelled as `List T`; element writes `v[j] = x` become
  `List.set`, which is the identity out of bounds (all writes below are in
  bounds).  `std::vector<T> result(n)` default-constructs `n` elements, modelled
  as `List.replicate n default` with `[Inhabited T]`.
* Worker threads write to pairwise disjoint index ranges and are joined before
  any result is read, so the parallel execution is modelled as the sequential
  composition of the workers in partition index order.
* Reads `data[j]` inside a worker loop (always in bounds) become
  `data.getD j default`.
* The comparison `operator<=` used by the merge step is modelled by a
  `LinearOrder` on the element type; `std::sort` of a subrange (which produces a
  sorted permutation of that subrange) is modelled by `List.insertionSort (· ≤ ·)`
  of the subrange.
-/

namespace RGT

variable {T : Type u}

/-- The engine state: the owned dataset and the configured thread count
(`std::vector<T> data; unsigned int num_threads;`). -/
structure ParallelProcessor (T : Type u) where
  data : List T
  num_threads : Nat

/-- Thread-count coercion performed by the constructor: the member initializer
`num_threads(threads == 0 ? 1 : threads)` followed by the constructor body
`if (num_threads == 0) num_threads = 4;` (the body branch is unreachable, since
the initializer never produces 0, but it is kept here faithfully). -/
def initThreads (threads : Nat) : Nat :=
  let n := if threads = 0 then 1 else threads
  if n = 0 then 4 else n

/-- The constructor `ParallelProcessor(input_data, threads)`.  When the caller
relies on the default argument `std::thread::hardware_concurrency()` and the
hardware concurrency cannot be detected, `threads` arrives here as 0. -/
def mkProcessor (input_data : List T) (threads : Nat) : ParallelProcessor T :=
  ParallelProcessor.mk input_data (initThreads threads)

/-- Start index of partition `i`: `start = i * chunk_size` with
`chunk_size = N / K`. -/
def chunkStart (N K i : Nat) : Nat := i * (N / K)

/-- End index of partition `i`:
`end = (i == num_threads - 1) ? data.size() : (i + 1) * chunk_size`. -/
def chunkEnd (N K i : Nat) : Nat := if i = K - 1 then N else (i + 1) * (N / K)

/-- Length of partition `i` (the worker loop `for (j = start; j < end; ++j)`
visits exactly this many indices). -/
def chunkLen (N K i : Nat) : Nat := chunkEnd N K i - chunkStart N K i

/-- The partition plan: the `K` half-open ranges `(start, end)` computed by the
thread-spawning loop shared by `process`, `process_with_progress`, `filter`,
`reduce` and `parallel_sort`. -/
def chunkRanges (N K : Nat) : List (Nat × Nat) :=
  (List.range K).map (fun i => (chunkStart N K i, chunkEnd N K i))

/-- The contiguous subrange `data[s..e)` of the dataset (the elements a worker
with range `[s, e)` reads). -/
def sliceOf (data : List T) (s e : Nat) : List T := (data.drop s).take (e - s)

/-- `process(func)`: allocate `result(data.size())` (default-constructed), then
for each thread `i` run `for (j = start; j < end; ++j) result[j] = func(data[j])`.
The workers write disjoint ranges and are all joined before `result` is
returned, so they are composed sequentially in partition order. -/
def processRun [Inhabited T] (data : List T) (f : T → T) (K : Nat) : List T :=
  (List.range K).foldl
    (fun result i =>
      (List.range' (chunkStart data.length K i) (chunkLen data.length K i)).foldl
        (fun result j => result.set j (f (data.getD j default))) result)
    (List.replicate data.length default)

/-- `map(func)`: defined in the source as a direct call to `process(func)`. -/
def mapRun [Inhabited T] (data : List T) (f : T → T) (K : Nat) : List T :=
  processRun data f K

/-- `process_with_progress(func)`: same element writes as `process`, with the
shared atomic counter `progress` incremented once per processed element.
Returns the result vector together with the final counter value. -/
def processWithProgressRun [Inhabited T] (data : List T) (f : T → T) (K : Nat) :
    List T × Nat :=
  (List.range K).foldl
    (fun st i =>
      (List.range' (chunkStart data.length K i) (chunkLen data.length K i)).foldl
        (fun st j => (st.1.set j (f (data.getD j default)), st.2 + 1)) st)
    (List.replicate data.length default, 0)

/-- One report line printed by the monitor thread of `process_with_progress`:
the completed count and total it printed, the percentage figure, and whether it
is the final ("완료", 100%) report emitted after the loop exits. -/
structure Report where
  completed : Nat
  total : Nat
  percent : Nat
  isFinal : Bool
deriving Repr, DecidableEq

/-- The monitor thread of `process_with_progress`, as a function of the sequence
of values it observes when reading the shared `progress` counter: it loops
`while (progress < total_size)`, each iteration printing a report whose
percentage is `progress * 100 / total_size`; once the condition fails it prints
one final report whose `100%` figure is a literal (no division).  Each observed
value drives one condition check; an empty observation list yields no reports
(the monitor is still waiting to read the counter). -/
def monitorRun (total : Nat) : List Nat → List Report
  | [] => []
  | p :: rest =>
    if p < total then Report.mk p total (p * 100 / total) false :: monitorRun total rest
    else [Report.mk p total 100 true]

/-- The per-thread body of `filter(predicate)`: scan `data[j]` for `j` in the
partition and push matches onto the thread-local `local_result`. -/
def filterLocal (data : List T) (p : T → Bool) (K i : Nat) : List T :=
  (sliceOf data (chunkStart data.length K i) (chunkEnd data.length K i)).filter p

/-- `filter(predicate)`: each worker builds its local result, then appends it to
the shared `result` under `result_mutex`.  The append order is the order in
which workers win the lock, which is a race; it is modelled by the explicit
parameter `order`, a permutation of the partition indices `0..K-1`. -/
def filterRun (data : List T) (p : T → Bool) (K : Nat) (order : List Nat) : List T :=
  (order.map (filterLocal data p K)).flatten

/-- The per-thread body of `reduce(func, initial_value)`: fold the partition
left-to-right starting from the initial value
(`local_result = func(local_result, data[j])`). -/
def reduceLocal (data : List T) (g : T → T → T) (z : T) (K i : Nat) : T :=
  (sliceOf data (chunkStart data.length K i) (chunkEnd data.length K i)).foldl g z

/-- `reduce(func, initial_value)`: allocate `partial_results(num_threads,
initial_value)`; worker `i` writes its fold into slot `i`; after joining, fold
the slots sequentially starting again from the initial value
(`final_result = func(final_result, partial)`). -/
def reduceRun (data : List T) (g : T → T → T) (z : T) (K : Nat) : T :=
  let parts := (List.range K).foldl
    (fun ps i => ps.set i (reduceLocal data g z K i)) (List.replicate K z)
  parts.foldl g z

/-- Overwrite `data[s .. s+xs.length)` with `xs`, leaving the rest unchanged
(the net effect of a worker writing a contiguous range of the shared vector). -/
def setRange (data : List T) (s : Nat) (xs : List T) : List T :=
  data.take s ++ xs ++ data.drop (s + xs.length)

/-- One local-sort worker of `parallel_sort`:
`std::sort(data.begin() + start, data.begin() + end)` replaces the subrange
`[start, end)` by a sorted permutation of itself. -/
def sortChunkStep [LinearOrder T] (N K : Nat) (d : List T) (i : Nat) : List T :=
  setRange d (chunkStart N K i)
    (List.insertionSort (· ≤ ·) (sliceOf d (chunkStart N K i) (chunkEnd N K i)))

/-- Phase 1 of `parallel_sort`: one worker per partition sorts its chunk in
place; the workers touch disjoint ranges and are joined before phase 2, so they
are composed sequentially in partition order. -/
def sortChunks [LinearOrder T] (data : List T) (K : Nat) : List T :=
  (List.range K).foldl (sortChunkStep data.length K) data

/-- `merge_sort_parallel(start, end, temp)`: recursively sort `[start, end)` by
splitting at `middle = start + (end - start) / 2`, handling each half, merging
the two halves into `temp[start..end)` with the `data[i] <= data[j]` loop, and
copying `temp[start..end)` back into `data`.

The scratch vector `temp` is elided: every merge writes `temp[k]` for every
`k ∈ [start, end)` before any of those cells is read, and copies exactly those
cells back, so the net effect on `data` is `setRange`.  The async dispatch
branch (`end - start > 10000 && num_threads > 1`) issues the same two recursive
calls as the synchronous branch; the two sub-calls read and write disjoint
index ranges of `data` and `temp` and are both complete before the merge step
(`future.wait()`), so both branches have the same net effect, modelled once. -/
def mergeRun [LinearOrder T] : List T → List T → List T
  | [], ys => ys
  | x :: xs, [] => x :: xs
  | x :: xs, y :: ys =>
    if x ≤ y then x :: mergeRun xs (y :: ys) else y :: mergeRun (x :: xs) ys
termination_by xs ys => xs.length + ys.length
decreasing_by
· simp only [List.length_cons]; omega
· simp only [List.length_cons]; omega

/-- The recursive merge phase of `parallel_sort` (see `mergeRun` for the merge
loop and for why the scratch buffer and the async branch are elided). -/
def mergeSortRange [LinearOrder T] (data : List T) (s e : Nat) : List T :=
  if e - s ≤ 1 then data
  else
    let d1 := mergeSortRange data s (s + (e - s) / 2)
    let d2 := mergeSortRange d1 (s + (e - s) / 2) e
    setRange d2 s
      (mergeRun (sliceOf d2 s (s + (e - s) / 2)) (sliceOf d2 (s + (e - s) / 2) e))
termination_by e - s
decreasing_by
· have hd : (e - s) / 2 < e - s := Nat.div_lt_self (by omega) (by omega)
  omega
· have hd : 1 ≤ (e - s) / 2 := (Nat.one_le_div_iff (by omega)).mpr (by omega)
  omega

/-- `parallel_sort()`: phase 1 sorts each partition in place, then
`merge_sort_parallel(0, data.size(), temp)` merges the whole index range. -/
def parallelSort [LinearOrder T] (data : List T) (K : Nat) : List T :=
  let d := sortChunks data K
  mergeSortRange d 0 d.length

/-- `process` as a state-passing operation on the engine: the workers read
`data` and write only the freshly allocated `result`, so the engine state is
returned unchanged. -/
def processOp [Inhabited T] (dp : ParallelProcessor T) (f : T → T) :
    ParallelProcessor T × List T :=
  (dp, processRun dp.data f dp.num_threads)

/-- `map` as a state-passing operation (a direct call to `process`). -/
def mapOp [Inhabited T] (dp : ParallelProcessor T) (f : T → T) :
    ParallelProcessor T × List T :=
  processOp dp f

/-- `process_with_progress` as a state-passing operation: workers write only
`result` and the shared counter, never `data`. -/
def processWithProgressOp [Inhabited T] (dp : ParallelProcessor T) (f : T → T) :
    ParallelProcessor T × List T :=
  (dp, (processWithProgressRun dp.data f dp.num_threads).1)

/-- `filter` as a state-passing operation: workers read `data` and write only
their local buffers and the shared `result`. -/
def filterOp (dp : ParallelProcessor T) (p : T → Bool) (order : List Nat) :
    ParallelProcessor T × List T :=
  (dp, filterRun dp.data p dp.num_threads order)

/-- `reduce` as a state-passing operation: workers read `data` and write only
`partial_results`. -/
def reduceOp (dp : ParallelProcessor T) (g : T → T → T) (z : T) :
    ParallelProcessor T × T :=
  (dp, reduceRun dp.data g z dp.num_threads)

/-- `parallel_sort` as a state-passing operation: the one operation that
mutates the dataset in place. -/
def parallelSortOp [LinearOrder T] (dp : ParallelProcessor T) : ParallelProcessor T :=
  ParallelProcessor.mk (parallelSort dp.data dp.num_threads) dp.num_threads

/-! ### Partition plan lemmas -/

theorem pred_mul_div_le (N K : Nat) : (K - 1) * (N / K) ≤ N :=
  le_trans (Nat.mul_le_mul_right _ (Nat.sub_le K 1))
    (by rw [mul_comm]; exact Nat.div_mul_le_self N K)

theorem flatten_map_range'_mul (c J : Nat) :
    ((List.range J).map (fun i => List.range' (i * c) c)).flatten = List.range' 0 (J * c) := by
  induction J with
  | zero => simp
  | succ J ih =>
    rw [List.range_succ, List.map_append, List.flatten_append, ih]
    simp only [List.map_cons, List.map_nil, List.flatten_cons, List.flatten_nil,
      List.append_nil]
    have h := List.range'_append 0 (J * c) c 1
    simp only [one_mul, Nat.zero_add] at h
    rw [h]
    congr 1
    ring

theorem flatten_chunk_index_ranges (N K : Nat) (hK : 1 ≤ K) :
    ((List.range K).map (fun i => List.range' (chunkStart N K i) (chunkLen N K i))).flatten
      = List.range N := by
  have hrange : List.range K = List.range (K - 1) ++ [K - 1] := by
    rw [← List.range_succ]
    congr 1
    omega
  rw [hrange, List.map_append, List.flatten_append]
  have hreg : (List.range (K - 1)).map (fun i => List.range' (chunkStart N K i) (chunkLen N K i))
      = (List.range (K - 1)).map (fun i => List.range' (i * (N / K)) (N / K)) := by
    apply List.map_congr_left
    intro i hi
    rw [List.mem_range] at hi
    have hne : i ≠ K - 1 := by omega
    simp only [chunkStart, chunkLen, chunkEnd, if_neg hne]
    congr 1
    rw [Nat.add_mul, one_mul, Nat.add_sub_cancel_left]
  rw [hreg, flatten_map_range'_mul]
  simp only [List.map_cons, List.map_nil, List.flatten_cons, List.flatten_nil, List.append_nil]
  have hlen : chunkLen N K (K - 1) = N - (K - 1) * (N / K) := by
    simp [chunkLen, chunkEnd, chunkStart]
  have hstart : chunkStart N K (K - 1) = (K - 1) * (N / K) := rfl
  rw [hlen, hstart]
  have h := List.range'_append 0 ((K - 1) * (N / K)) (N - (K - 1) * (N / K)) 1
  simp only [one_mul, Nat.zero_add] at h
  rw [h, List.range_eq_range']
  have hle : (K - 1) * (N / K) ≤ N := pred_mul_div_le N K
  congr 1
  omega

theorem flatten_map_slice_mul (c : Nat) (d : List T) (J : Nat) :
    ((List.range J).map (fun i => sliceOf d (i * c) ((i + 1) * c))).flatten = d.take (J * c) := by
  induction J with
  | zero => simp
  | succ J ih =>
    rw [List.range_succ, List.map_append, List.flatten_append, ih]
    simp only [List.map_cons, List.map_nil, List.flatten_cons, List.flatten_nil,
      List.append_nil]
    have hslice : sliceOf d (J * c) ((J + 1) * c) = (d.drop (J * c)).take c := by
      unfold sliceOf
      congr 1
      rw [Nat.add_mul, one_mul, Nat.add_sub_cancel_left]
    rw [hslice, ← List.take_add]
    congr 1
    rw [Nat.add_mul, one_mul]

theorem flatten_chunk_slices (d : List T) (K : Nat) (hK : 1 ≤ K) :
    ((List.range K).map
      (fun i => sliceOf d (chunkStart d.length K i) (chunkEnd d.length K i))).flatten = d := by
  have hrange : List.range K = List.range (K - 1) ++ [K - 1] := by
    rw [← List.range_succ]
    congr 1
    omega
  rw [hrange, List.map_append, List.flatten_append]
  have hreg : (List.range (K - 1)).map
        (fun i => sliceOf d (chunkStart d.length K i) (chunkEnd d.length K i))
      = (List.range (K - 1)).map
        (fun i => sliceOf d (i * (d.length / K)) ((i + 1) * (d.length / K))) := by
    apply List.map_congr_left
    intro i hi
    rw [List.mem_range] at hi
    have hne : i ≠ K - 1 := by omega
    simp [chunkStart, chunkEnd, if_neg hne]
  rw [hreg, flatten_map_slice_mul]
  simp only [List.map_cons, List.map_nil, List.flatten_cons, List.flatten_nil, List.append_nil]
  have hend : chunkEnd d.length K (K - 1) = d.length := by simp [chunkEnd]
  have hslice : sliceOf d (chunkStart d.length K (K - 1)) d.length
      = d.drop ((K - 1) * (d.length / K)) := by
    unfold sliceOf chunkStart
    apply List.take_of_length_le
    rw [List.length_drop]
  rw [hend, hslice, List.take_append_drop]

/-! ### Write-fold lemmas: a batch of `result[j] = v j` writes over an index list -/

theorem foldl_set_length (f : Nat → α) (l : List Nat) (acc : List α) :
    (l.foldl (fun a j => a.set j (f j)) acc).length = acc.length := by
  induction l generalizing acc with
  | nil => rfl
  | cons j l ih => simp [List.foldl_cons, ih, List.length_set]

theorem foldl_set_getElem? (f : Nat → α) (l : List Nat) (acc : List α) (k : Nat) :
    (l.foldl (fun a j => a.set j (f j)) acc)[k]? =
      if k ∈ l ∧ k < acc.length then some (f k) else acc[k]? := by
  induction l generalizing acc with
  | nil => simp
  | cons j l ih =>
    rw [List.foldl_cons, ih, List.length_set]
    by_cases h2 : k < acc.length
    · by_cases h1 : k ∈ l
      · rw [if_pos ⟨h1, h2⟩, if_pos ⟨List.mem_cons_of_mem _ h1, h2⟩]
      · rw [if_neg (by simp [h1])]
        by_cases h3 : k = j
        · subst h3
          rw [if_pos ⟨List.mem_cons_self _ _, h2⟩, List.getElem?_set, if_pos rfl, if_pos h2]
        · rw [if_neg (by simp [List.mem_cons, h1, h3]), List.getElem?_set,
            if_neg (by omega)]
    · rw [if_neg (by simp [h2]), if_neg (by simp [h2]),
        List.getElem?_eq_none (by rw [List.length_set]; omega),
        List.getElem?_eq_none (by omega)]

theorem foldl_set_range_eq_map (f : Nat → α) (K : Nat) (z : α) :
    (List.range K).foldl (fun a j => a.set j (f j)) (List.replicate K z)
      = (List.range K).map f := by
  apply List.ext_getElem?
  intro k
  rw [foldl_set_getElem?, List.getElem?_map, List.length_replicate]
  by_cases hk : k < K
  · simp [List.mem_range, hk, List.getElem?_range hk]
  · rw [if_neg (by simp [List.mem_range, hk])]
    rw [List.getElem?_eq_none (by simp [List.length_replicate]; omega),
      List.getElem?_eq_none (by simp [List.length_range]; omega)]
    rfl

/-! ### Claim theorems: partition plan, monitor, frame, thread count -/

/-- Claim C5: for every length `N ≥ 0` and thread count `K ≥ 1`, the partition
plan consists of exactly `K` half-open ranges that are disjoint, contiguous and
cover `[0, N)` exactly once (their interval contents concatenate, in order, to
`[0, N)`); every range but the last has length `⌊N/K⌋`, and the last range has
length `N - (K-1)·⌊N/K⌋`. -/
theorem chunkRanges_partition (N K : Nat) (hK : 1 ≤ K) :
    (chunkRanges N K).length = K ∧
    ((chunkRanges N K).map (fun r => List.range' r.1 (r.2 - r.1))).flatten = List.range N ∧
    (∀ i, i < K - 1 → chunkEnd N K i - chunkStart N K i = N / K) ∧
    chunkEnd N K (K - 1) - chunkStart N K (K - 1) = N - (K - 1) * (N / K) := by
  refine ⟨by simp [chunkRanges], ?_, ?_, ?_⟩
  · rw [chunkRanges, List.map_map]
    exact flatten_chunk_index_ranges N K hK
  · intro i hi
    have hne : i ≠ K - 1 := by omega
    simp only [chunkStart, chunkEnd, if_neg hne]
    rw [Nat.add_mul, one_mul, Nat.add_sub_cancel_left]
  · simp [chunkStart, chunkEnd]

/-- Claim C8: when the dataset length is 0, the monitor of
`process_with_progress` never enters its polling loop (`progress < total` is
immediately false for `total = 0`, whatever progress value is observed), so the
per-iteration percentage computation dividing by the total is never executed
(no non-final report is emitted), and the monitor still emits exactly one final
completion report whose 100% figure is a literal. -/
theorem monitor_zero_total (p : Nat) (tr : List Nat) :
    monitorRun 0 (p :: tr) = [Report.mk p 0 100 true] ∧
    (monitorRun 0 (p :: tr)).countP (fun r => !r.isFinal) = 0 ∧
    (monitorRun 0 (p :: tr)).countP (fun r => r.isFinal) = 1 := by
  have h : monitorRun 0 (p :: tr) = [Report.mk p 0 100 true] := by
    simp [monitorRun]
  refine ⟨h, ?_, ?_⟩ <;> rw [h] <;> rfl

/-- Claim C9: the dataset held by the engine is mutated only by
`parallel_sort`: `process`, `map`, `process_with_progress`, `filter` and
`reduce` all return the engine state with the stored data sequence unchanged
(same elements in the same order). -/
theorem non_sort_ops_preserve_data [Inhabited T] (dp : ParallelProcessor T)
    (f : T → T) (p : T → Bool) (g : T → T → T) (z : T) (order : List Nat) :
    (processOp dp f).1.data = dp.data ∧
    (mapOp dp f).1.data = dp.data ∧
    (processWithProgressOp dp f).1.data = dp.data ∧
    (filterOp dp p order).1.data = dp.data ∧
    (reduceOp dp g z).1.data = dp.data :=
  ⟨rfl, rfl, rfl, rfl, rfl⟩

/-- Claim C10: for every construction argument the engine's thread count
satisfies `num_threads ≥ 1` (a zero argument — including the undetected
hardware-concurrency case — is coerced to a positive default instead of
failing), and every operation leaves the thread count unchanged, so every
subsequent operation observes this positive value. -/
theorem thread_count_positive [Inhabited T] [LinearOrder T]
    (input_data : List T) (threads : Nat) (dp : ParallelProcessor T)
    (f : T → T) (p : T → Bool) (g : T → T → T) (z : T) (order : List Nat) :
    1 ≤ (mkProcessor input_data threads).num_threads ∧
    (processOp dp f).1.num_threads = dp.num_threads ∧
    (mapOp dp f).1.num_threads = dp.num_threads ∧
    (processWithProgressOp dp f).1.num_threads = dp.num_threads ∧
    (filterOp dp p order).1.num_threads = dp.num_threads ∧
    (reduceOp dp g z).1.num_threads = dp.num_threads ∧
    (parallelSortOp dp).num_threads = dp.num_threads := by
  refine ⟨?_, rfl, rfl, rfl, rfl, rfl, rfl⟩
  simp only [mkProcessor, initThreads]
  by_cases h : threads = 0
  · simp [h]
  · simp only [if_neg h]
    omega

/-! ### process / map: claim C3 -/

theorem processRun_eq_map [Inhabited T] (data : List T) (f : T → T) (K : Nat) (hK : 1 ≤ K) :
    processRun data f K = data.map f := by
  have hflat : ((List.range K).map
      (fun i => List.range' (chunkStart data.length K i) (chunkLen data.length K i))).flatten
      = List.range data.length := flatten_chunk_index_ranges data.length K hK
  have hfold : processRun data f K
      = (((List.range K).map
          (fun i => List.range' (chunkStart data.length K i) (chunkLen data.length K i))).flatten).foldl
          (fun a j => a.set j (f (data.getD j default)))
          (List.replicate data.length default) := by
    rw [List.foldl_flatten, List.foldl_map]
    rfl
  rw [hfold, hflat]
  apply List.ext_getElem?
  intro k
  rw [foldl_set_getElem? (fun j => f (data.getD j default)), List.length_replicate,
    List.getElem?_map]
  by_cases hk : k < data.length
  · rw [if_pos ⟨List.mem_range.mpr hk, hk⟩, List.getElem?_eq_getElem hk]
    simp [List.getD_eq_getElem?_getD, List.getElem?_eq_getElem hk]
  · rw [if_neg (by simp [List.mem_range, hk]),
      List.getElem?_eq_none (by rw [List.length_replicate]; omega),
      List.getElem?_eq_none (by omega)]
    rfl

/-- Claim C3: for every dataset, transform `f` and thread count `K ≥ 1`,
`process(f)` returns a sequence of length `N` with `result[i] = f(data[i])` at
every index, element order preserved (it equals `data.map f`); `map` has the
identical contract (it is a direct call to `process`), and thread counts 1 and
8 yield identical results on the same data and `f`. -/
theorem process_pointwise [Inhabited T] (data : List T) (f : T → T) (K : Nat) (hK : 1 ≤ K) :
    processRun data f K = data.map f ∧
    mapRun data f K = processRun data f K ∧
    processRun data f 1 = processRun data f 8 := by
  refine ⟨processRun_eq_map data f K hK, rfl, ?_⟩
  rw [processRun_eq_map data f 1 (by omega), processRun_eq_map data f 8 (by omega)]

/-- Witness for C3 at a concrete input. -/
theorem process_pointwise_witness :
    1 ≤ 2 ∧ (processRun [1, 2, 3] (fun x => x * 2) 2 = [1, 2, 3].map (fun x => x * 2) ∧
      mapRun [1, 2, 3] (fun x => x * 2) 2 = processRun [1, 2, 3] (fun x => x * 2) 2 ∧
      processRun [1, 2, 3] (fun x => x * 2) 1 = processRun [1, 2, 3] (fun x => x * 2) 8) :=
  ⟨by decide, process_pointwise [1, 2, 3] (fun x => x * 2) 2 (by decide)⟩

/-! ### reduce: claim C2 -/

theorem foldl_assoc_comm (g : T → T → T) (hassoc : ∀ a b c, g (g a b) c = g a (g b c))
    (l : List T) : ∀ (a b : T), l.foldl g (g a b) = g a (l.foldl g b) := by
  induction l with
  | nil => intro a b; rfl
  | cons x l ih => intro a b; rw [List.foldl_cons, List.foldl_cons, hassoc, ih]

theorem foldl_map_foldl_of_ne_nil (g : T → T → T) (z : T)
    (hassoc : ∀ a b c, g (g a b) c = g a (g b c)) (hid : ∀ x, g z x = x)
    (chunks : List (List T)) (hne : ∀ ch ∈ chunks, ch ≠ []) :
    ∀ a, (chunks.map (fun ch => ch.foldl g z)).foldl g a = chunks.flatten.foldl g a := by
  induction chunks with
  | nil => intro a; rfl
  | cons ch rest ih =>
    intro a
    cases ch with
    | nil => exact absurd rfl (hne [] (List.mem_cons_self _ _))
    | cons x ch' =>
      rw [List.map_cons, List.foldl_cons, List.flatten_cons, List.foldl_append]
      have h1 : g a ((x :: ch').foldl g z) = (x :: ch').foldl g a := by
        rw [List.foldl_cons, List.foldl_cons, hid, ← foldl_assoc_comm g hassoc]
      rw [h1]
      exact ih (fun c hc => hne c (List.mem_cons_of_mem _ hc)) _

theorem foldl_replicate_self (g : T → T → T) (z : T) (hid : ∀ x, g z x = x) (n : Nat) :
    (List.replicate n z).foldl g z = z := by
  induction n with
  | zero => rfl
  | succ n ih => rw [List.replicate_succ, List.foldl_cons, hid]; exact ih

theorem reduceRun_parts (data : List T) (g : T → T → T) (z : T) (K : Nat) :
    reduceRun data g z K = ((List.range K).map (reduceLocal data g z K)).foldl g z := by
  simp only [reduceRun]
  rw [foldl_set_range_eq_map]

theorem chunk_slices_nonempty (data : List T) (K i : Nat) (hK : 1 ≤ K) (hi : i < K)
    (hc : K ≤ data.length) :
    sliceOf data (chunkStart data.length K i) (chunkEnd data.length K i) ≠ [] := by
  apply List.ne_nil_of_length_pos
  have hc1 : 1 ≤ data.length / K := (Nat.one_le_div_iff (by omega)).mpr hc
  have hKc : K * (data.length / K) ≤ data.length := by
    rw [mul_comm]; exact Nat.div_mul_le_self _ _
  have hcK : data.length / K ≤ K * (data.length / K) :=
    Nat.le_mul_of_pos_left _ (by omega)
  have h1 : (K - 1) * (data.length / K) = K * (data.length / K) - data.length / K :=
    Nat.sub_one_mul K (data.length / K)
  have hs : chunkStart data.length K i ≤ (K - 1) * (data.length / K) :=
    Nat.mul_le_mul_right _ (by omega)
  rw [sliceOf, List.length_take, List.length_drop]
  by_cases hi' : i = K - 1
  · subst hi'
    simp only [chunkEnd, eq_self_iff_true, if_true]
    omega
  · simp only [chunkEnd, if_neg hi']
    have h2 : (i + 1) * (data.length / K) = chunkStart data.length K i + data.length / K := by
      rw [chunkStart, Nat.add_mul, one_mul]
    have h3 : i + 1 ≤ K - 1 := by omega
    have h4 : (i + 1) * (data.length / K) ≤ (K - 1) * (data.length / K) :=
      Nat.mul_le_mul_right _ h3
    omega

theorem reduceRun_eq_foldl (g : T → T → T) (z : T)
    (hassoc : ∀ a b c, g (g a b) c = g a (g b c)) (hid : ∀ x, g z x = x)
    (data : List T) (K : Nat) (hK : 1 ≤ K) :
    reduceRun data g z K = data.foldl g z := by
  rw [reduceRun_parts]
  have hmap : (List.range K).map (reduceLocal data g z K)
      = ((List.range K).map
          (fun i => sliceOf data (chunkStart data.length K i) (chunkEnd data.length K i))).map
          (fun ch => ch.foldl g z) := by
    rw [List.map_map]
    rfl
  rw [hmap]
  by_cases hc : K ≤ data.length
  · rw [foldl_map_foldl_of_ne_nil g z hassoc hid _ ?hne z, flatten_chunk_slices data K hK]
    case hne =>
      intro ch hch
      rw [List.mem_map] at hch
      obtain ⟨i, hi, rfl⟩ := hch
      rw [List.mem_range] at hi
      exact chunk_slices_nonempty data K i hK hi hc
  · have hc0 : data.length / K = 0 := Nat.div_eq_of_lt (by omega)
    have hrange : List.range K = List.range (K - 1) ++ [K - 1] := by
      rw [← List.range_succ]; congr 1; omega
    rw [hrange, List.map_append, List.map_append, List.foldl_append]
    have hpre : (((List.range (K - 1)).map
        (fun i => sliceOf data (chunkStart data.length K i) (chunkEnd data.length K i))).map
          (fun ch => ch.foldl g z))
        = List.replicate (K - 1) z := by
      rw [List.map_map]
      have hcongr : ∀ i ∈ List.range (K - 1),
          ((fun ch => ch.foldl g z) ∘
            (fun i => sliceOf data (chunkStart data.length K i) (chunkEnd data.length K i))) i
          = z := by
        intro i hi
        rw [List.mem_range] at hi
        have hne : i ≠ K - 1 := by omega
        simp [sliceOf, chunkEnd, if_neg hne, hc0]
      rw [List.map_congr_left hcongr, List.map_const', List.length_range]
    have hlast : sliceOf data (chunkStart data.length K (K - 1))
        (chunkEnd data.length K (K - 1)) = data := by
      simp [sliceOf, chunkStart, chunkEnd, hc0]
    rw [hpre, foldl_replicate_self g z hid]
    simp only [List.map_cons, List.map_nil, List.foldl_cons, List.foldl_nil]
    rw [hlast]
    exact hid _

/-- Claim C2: for every dataset, thread count `K ≥ 1`, associative combining
function `g` and value `z` that is a left identity of `g`, the two-phase
`reduce(g, z)` returns the single sequential left fold of `z` over the whole
dataset with `g`; in particular, with integer addition and `z = 0`, `reduce`
returns the arithmetic sum of the dataset (the sum of `[]` being 0). -/
theorem reduce_eq_sequential_fold :
    (∀ {S : Type u} (g : S → S → S) (z : S),
        (∀ a b c, g (g a b) c = g a (g b c)) → (∀ x, g z x = x) →
        ∀ (data : List S) (K : Nat), 1 ≤ K → reduceRun data g z K = data.foldl g z) ∧
    (∀ (l : List Int) (K : Nat), 1 ≤ K → reduceRun l (· + ·) 0 K = l.sum) := by
  constructor
  · intro S g z hassoc hid data K hK
    exact reduceRun_eq_foldl g z hassoc hid data K hK
  · intro l K hK
    rw [reduceRun_eq_foldl (· + ·) 0 (fun a b c => add_assoc a b c) (fun x => zero_add x) l K hK,
      List.sum_eq_foldl]

/-- Witness for C2 at a concrete input. -/
theorem reduce_eq_sequential_fold_witness :
    1 ≤ 3 ∧ reduceRun [1, 2, 3, 4, 5, 6] (· + ·) (0 : Int) 3 = [1, 2, 3, 4, 5, 6].sum :=
  ⟨by decide, (reduce_eq_sequential_fold.{0}).2 [1, 2, 3, 4, 5, 6] 3 (by decide)⟩

/-! ### filter: claim C4 -/

/-- Claim C4: for every dataset, predicate `p`, thread count `K ≥ 1`, and every
merge order (the order in which the workers win the result lock — any
permutation of the partition indices), the sequence returned by `filter(p)`,
viewed as a multiset, equals the multiset of elements of the dataset satisfying
`p`; only this multiset equality, not positional order, is guaranteed. -/
theorem filter_multiset_eq (data : List T) (p : T → Bool) (K : Nat) (order : List Nat)
    (hK : 1 ≤ K) (horder : order.Perm (List.range K)) :
    (filterRun data p K order : Multiset T) = (data.filter p : Multiset T) := by
  rw [Multiset.coe_eq_coe]
  have h2 : ((List.range K).map (filterLocal data p K)).flatten = data.filter p := by
    have hmap : (List.range K).map (filterLocal data p K)
        = ((List.range K).map
            (fun i => sliceOf data (chunkStart data.length K i) (chunkEnd data.length K i))).map
            (List.filter p) := by
      rw [List.map_map]
      rfl
    rw [hmap, ← List.filter_flatten, flatten_chunk_slices data K hK]
  rw [← h2]
  exact (horder.map (filterLocal data p K)).flatten

/-- Witness for C4 at a concrete input (merge order with the second partition
winning the lock first). -/
theorem filter_multiset_eq_witness :
    1 ≤ 2 ∧ List.Perm [1, 0] (List.range 2) ∧
    ((filterRun [1, 2, 3, 4, 5, 6] (fun x => decide (3 < x)) 2 [1, 0] : List Nat) : Multiset Nat)
      = (([1, 2, 3, 4, 5, 6].filter (fun x => decide (3 < x)) : List Nat) : Multiset Nat) :=
  ⟨by decide, by decide,
    filter_multiset_eq [1, 2, 3, 4, 5, 6] (fun x => decide (3 < x)) 2 [1, 0]
      (by decide) (by decide)⟩

/-! ### parallel_sort: slice and range-overwrite lemmas -/

theorem sliceOf_nil_of_le (d : List T) (s e : Nat) (h : e ≤ s) : sliceOf d s e = [] := by
  simp [sliceOf, Nat.sub_eq_zero_of_le h]

theorem take_slice_drop (d : List T) (s e : Nat) (hs : s ≤ e) :
    d.take s ++ sliceOf d s e ++ d.drop e = d := by
  have h1 : d.drop e = (d.drop s).drop (e - s) := by
    rw [List.drop_drop]
    congr 1
    omega
  rw [sliceOf, h1, List.append_assoc, List.take_append_drop, List.take_append_drop]

theorem sliceOf_length_of_le (d : List T) (s e : Nat) (hs : s ≤ e) (he : e ≤ d.length) :
    (sliceOf d s e).length = e - s := by
  rw [sliceOf, List.length_take, List.length_drop]
  omega

theorem setRange_append (A Y B X : List T) (hX : X.length = Y.length) :
    setRange (A ++ Y ++ B) A.length X = A ++ X ++ B := by
  have h1 : (A ++ Y ++ B).take A.length = A := by
    rw [List.append_assoc]
    exact List.take_left' rfl
  have h2 : (A ++ Y ++ B).drop (A.length + X.length) = B := by
    rw [hX]
    exact List.drop_left' (by rw [List.length_append])
  rw [setRange, h1, h2]

theorem sliceOf_append_middle (A Y B : List T) :
    sliceOf (A ++ Y ++ B) A.length (A.length + Y.length) = Y := by
  have h1 : (A ++ Y ++ B).drop A.length = Y ++ B := by
    rw [List.append_assoc]
    exact List.drop_left' rfl
  rw [sliceOf, h1, Nat.add_sub_cancel_left]
  exact List.take_left' rfl

theorem sliceOf_split (d : List T) (s m e : Nat) (h1 : s ≤ m) (h2 : m ≤ e) :
    sliceOf d s m ++ sliceOf d m e = sliceOf d s e := by
  have hdrop : d.drop m = (d.drop s).drop (m - s) := by
    rw [List.drop_drop]
    congr 1
    omega
  simp only [sliceOf]
  rw [hdrop, ← List.take_add]
  congr 1
  omega

theorem sliceOf_sublist (d : List T) (s e : Nat) : (sliceOf d s e).Sublist d :=
  (List.take_sublist _ _).trans (List.drop_sublist _ _)

/-! ### parallel_sort: the merge loop -/

theorem mergeRun_perm [LinearOrder T] (xs : List T) : ∀ ys : List T,
    (mergeRun xs ys).Perm (xs ++ ys) := by
  induction xs with
  | nil => intro ys; simp [mergeRun]
  | cons x xs ihx =>
    intro ys
    induction ys with
    | nil => simp [mergeRun]
    | cons y ys ihy =>
      simp only [mergeRun]
      by_cases h : x ≤ y
      · rw [if_pos h, List.cons_append]
        exact (ihx (y :: ys)).cons x
      · rw [if_neg h]
        exact (ihy.cons y).trans List.perm_middle.symm

theorem mergeRun_sorted [LinearOrder T] (xs : List T) : ∀ ys : List T,
    List.Sorted (· ≤ ·) xs → List.Sorted (· ≤ ·) ys →
    List.Sorted (· ≤ ·) (mergeRun xs ys) := by
  induction xs with
  | nil => intro ys _ hy; simpa [mergeRun] using hy
  | cons x xs ihx =>
    intro ys hx
    induction ys with
    | nil => intro _; simpa [mergeRun] using hx
    | cons y ys ihy =>
      intro hy
      rw [List.sorted_cons] at hx hy
      obtain ⟨hx1, hx2⟩ := hx
      obtain ⟨hy1, hy2⟩ := hy
      simp only [mergeRun]
      by_cases h : x ≤ y
      · rw [if_pos h, List.sorted_cons]
        constructor
        · intro b hb
          rw [(mergeRun_perm xs (y :: ys)).mem_iff, List.mem_append, List.mem_cons] at hb
          rcases hb with hb | hb | hb
          · exact hx1 b hb
          · exact hb ▸ h
          · exact le_trans h (hy1 b hb)
        · exact ihx (y :: ys) hx2 (by rw [List.sorted_cons]; exact ⟨hy1, hy2⟩)
      · rw [if_neg h]
        have hyx : y ≤ x := le_of_not_le h
        rw [List.sorted_cons]
        constructor
        · intro b hb
          rw [(mergeRun_perm (x :: xs) ys).mem_iff, List.mem_append, List.mem_cons] at hb
          rcases hb with (hb | hb) | hb
          · exact hb ▸ hyx
          · exact le_trans hyx (hx1 b hb)
          · exact hy1 b hb
        · exact ihy hy2

theorem mergeRun_of_sorted_append [LinearOrder T] (xs : List T) : ∀ ys : List T,
    List.Sorted (· ≤ ·) (xs ++ ys) → mergeRun xs ys = xs ++ ys := by
  induction xs with
  | nil => intro ys _; simp [mergeRun]
  | cons x xs ihx =>
    intro ys
    cases ys with
    | nil => intro _; simp [mergeRun]
    | cons y ys =>
      intro hs
      rw [List.cons_append, List.sorted_cons] at hs
      obtain ⟨h1, h2⟩ := hs
      have hxy : x ≤ y :=
        h1 y (by rw [List.mem_append]; right; exact List.mem_cons_self _ _)
      simp only [mergeRun]
      rw [if_pos hxy, ihx (y :: ys) h2, List.cons_append]

/-! ### parallel_sort: the recursive merge phase -/

theorem mergeSortRange_base [LinearOrder T] (d : List T) (s e : Nat) (h : e - s ≤ 1) :
    mergeSortRange d s e = d := by
  rw [mergeSortRange.eq_def, if_pos h]

theorem mergeSortRange_step [LinearOrder T] (d : List T) (s e : Nat) (h : ¬ (e - s ≤ 1)) :
    mergeSortRange d s e =
      setRange (mergeSortRange (mergeSortRange d s (s + (e - s) / 2)) (s + (e - s) / 2) e) s
        (mergeRun
          (sliceOf (mergeSortRange (mergeSortRange d s (s + (e - s) / 2)) (s + (e - s) / 2) e)
            s (s + (e - s) / 2))
          (sliceOf (mergeSortRange (mergeSortRange d s (s + (e - s) / 2)) (s + (e - s) / 2) e)
            (s + (e - s) / 2) e)) := by
  conv_lhs => rw [mergeSortRange.eq_def]
  rw [if_neg h]

theorem mergeSortRange_small [LinearOrder T] (d : List T) (s e : Nat)
    (h : e - s ≤ 1) (hs : s ≤ e) (he : e ≤ d.length) :
    ∃ mid, mergeSortRange d s e = d.take s ++ mid ++ d.drop e ∧
      mid.Perm (sliceOf d s e) ∧ List.Sorted (· ≤ ·) mid := by
  refine ⟨sliceOf d s e, ?_, List.Perm.refl _, ?_⟩
  · rw [mergeSortRange_base d s e h]
    exact (take_slice_drop d s e hs).symm
  · have hlen : (sliceOf d s e).length ≤ 1 := by
      rw [sliceOf_length_of_le d s e hs he]
      omega
    rcases hsl : sliceOf d s e with _ | ⟨a, _ | ⟨b, t⟩⟩
    · exact List.sorted_nil
    · exact List.sorted_singleton a
    · rw [hsl] at hlen
      simp at hlen

theorem mergeSortRange_spec [LinearOrder T] (n : Nat) :
    ∀ (d : List T) (s e : Nat), e - s ≤ n → s ≤ e → e ≤ d.length →
      ∃ mid, mergeSortRange d s e = d.take s ++ mid ++ d.drop e ∧
        mid.Perm (sliceOf d s e) ∧ List.Sorted (· ≤ ·) mid := by
  induction n with
  | zero =>
    intro d s e hn hs he
    exact mergeSortRange_small d s e (by omega) hs he
  | succ n ih =>
    intro d s e hn hs he
    by_cases h1 : e - s ≤ 1
    · exact mergeSortRange_small d s e h1 hs he
    · have hq1 : 1 ≤ (e - s) / 2 := (Nat.one_le_div_iff (by omega)).mpr (by omega)
      have hq2 : (e - s) / 2 < e - s := Nat.div_lt_self (by omega) (by omega)
      obtain ⟨mid1, heq1, hperm1, hsort1⟩ :=
        ih d s (s + (e - s) / 2) (by omega) (by omega) (by omega)
      have hlen1 : mid1.length = (e - s) / 2 := by
        rw [hperm1.length_eq, sliceOf_length_of_le d s (s + (e - s) / 2) (by omega) (by omega)]
        omega
      have htakeS : (d.take s).length = s := by
        rw [List.length_take]
        omega
      have hABlen : (d.take s ++ mid1).length = s + (e - s) / 2 := by
        rw [List.length_append, htakeS, hlen1]
      have hd1len : (mergeSortRange d s (s + (e - s) / 2)).length = d.length := by
        rw [heq1, List.length_append, List.length_append, htakeS, hlen1, List.length_drop]
        omega
      obtain ⟨mid2, heq2, hperm2, hsort2⟩ :=
        ih (mergeSortRange d s (s + (e - s) / 2)) (s + (e - s) / 2) e (by omega) (by omega)
          (by rw [hd1len]; exact he)
      have hd1drop_m : (mergeSortRange d s (s + (e - s) / 2)).drop (s + (e - s) / 2)
          = d.drop (s + (e - s) / 2) := by
        rw [heq1]
        exact List.drop_left' hABlen
      have hd1take_m : (mergeSortRange d s (s + (e - s) / 2)).take (s + (e - s) / 2)
          = d.take s ++ mid1 := by
        rw [heq1]
        exact List.take_left' hABlen
      have hd1drop_e : (mergeSortRange d s (s + (e - s) / 2)).drop e = d.drop e := by
        rw [heq1, List.drop_append_eq_append_drop,
          List.drop_eq_nil_of_le (by rw [hABlen]; omega), List.nil_append, hABlen,
          List.drop_drop]
        congr 1
        omega
      have hlen2 : mid2.length = e - (s + (e - s) / 2) := by
        rw [hperm2.length_eq,
          sliceOf_length_of_le _ _ _ (by omega) (by rw [hd1len]; exact he)]
      have hperm2' : mid2.Perm (sliceOf d (s + (e - s) / 2) e) := by
        have hslice : sliceOf (mergeSortRange d s (s + (e - s) / 2)) (s + (e - s) / 2) e
            = sliceOf d (s + (e - s) / 2) e := by
          simp only [sliceOf]
          rw [hd1drop_m]
        rw [← hslice]
        exact hperm2
      have heq2' : mergeSortRange (mergeSortRange d s (s + (e - s) / 2)) (s + (e - s) / 2) e
          = d.take s ++ (mid1 ++ mid2) ++ d.drop e := by
        rw [heq2, hd1take_m, hd1drop_e]
        simp [List.append_assoc]
      have hshape : d.take s ++ (mid1 ++ mid2) ++ d.drop e
          = d.take s ++ mid1 ++ (mid2 ++ d.drop e) := by
        simp [List.append_assoc]
      have hshape2 : d.take s ++ (mid1 ++ mid2) ++ d.drop e
          = (d.take s ++ mid1) ++ mid2 ++ d.drop e := by
        simp [List.append_assoc]
      have hsliceA : sliceOf
          (mergeSortRange (mergeSortRange d s (s + (e - s) / 2)) (s + (e - s) / 2) e)
          s (s + (e - s) / 2) = mid1 := by
        rw [heq2', hshape]
        have h := sliceOf_append_middle (d.take s) mid1 (mid2 ++ d.drop e)
        rw [htakeS, hlen1] at h
        exact h
      have hsliceB : sliceOf
          (mergeSortRange (mergeSortRange d s (s + (e - s) / 2)) (s + (e - s) / 2) e)
          (s + (e - s) / 2) e = mid2 := by
        rw [heq2', hshape2]
        have h := sliceOf_append_middle (d.take s ++ mid1) mid2 (d.drop e)
        rw [hABlen, hlen2] at h
        rw [show s + (e - s) / 2 + (e - (s + (e - s) / 2)) = e from by omega] at h
        exact h
      refine ⟨mergeRun mid1 mid2, ?_, ?_⟩
      · have hX : (mergeRun mid1 mid2).length = (mid1 ++ mid2).length :=
          (mergeRun_perm mid1 mid2).length_eq
        have hset := setRange_append (d.take s) (mid1 ++ mid2) (d.drop e)
          (mergeRun mid1 mid2) hX
        rw [htakeS] at hset
        rw [mergeSortRange_step d s e h1, hsliceA, hsliceB, heq2', hset]
      · have hsplit : (sliceOf d s (s + (e - s) / 2)
            ++ sliceOf d (s + (e - s) / 2) e).Perm (sliceOf d s e) := by
          rw [sliceOf_split d s (s + (e - s) / 2) e (by omega) (by omega)]
        exact ⟨(mergeRun_perm mid1 mid2).trans ((hperm1.append hperm2').trans hsplit),
          mergeRun_sorted mid1 mid2 hsort1 hsort2⟩

theorem mergeSortRange_of_sorted [LinearOrder T] (n : Nat) :
    ∀ (d : List T) (s e : Nat), e - s ≤ n → s ≤ e → e ≤ d.length →
      List.Sorted (· ≤ ·) d → mergeSortRange d s e = d := by
  induction n with
  | zero =>
    intro d s e hn _ _ _
    exact mergeSortRange_base d s e (by omega)
  | succ n ih =>
    intro d s e hn hs he hsort
    by_cases h1 : e - s ≤ 1
    · exact mergeSortRange_base d s e h1
    · have hq1 : 1 ≤ (e - s) / 2 := (Nat.one_le_div_iff (by omega)).mpr (by omega)
      have hq2 : (e - s) / 2 < e - s := Nat.div_lt_self (by omega) (by omega)
      rw [mergeSortRange_step d s e h1,
        ih d s (s + (e - s) / 2) (by omega) (by omega) (by omega) hsort,
        ih d (s + (e - s) / 2) e (by omega) (by omega) he hsort]
      have hsortslice : List.Sorted (· ≤ ·)
          (sliceOf d s (s + (e - s) / 2) ++ sliceOf d (s + (e - s) / 2) e) := by
        rw [sliceOf_split d s (s + (e - s) / 2) e (by omega) (by omega)]
        exact List.Pairwise.sublist (sliceOf_sublist d s e) hsort
      rw [mergeRun_of_sorted_append _ _ hsortslice,
        sliceOf_split d s (s + (e - s) / 2) e (by omega) (by omega),
        setRange, sliceOf_length_of_le d s e hs he,
        show s + (e - s) = e from by omega]
      exact take_slice_drop d s e hs

/-! ### parallel_sort: the chunk-sorting phase -/

theorem chunkStart_le_chunkEnd (N K i : Nat) (hi : i < K) :
    chunkStart N K i ≤ chunkEnd N K i := by
  by_cases h : i = K - 1
  · subst h
    simp only [chunkEnd, eq_self_iff_true, if_true]
    exact pred_mul_div_le N K
  · simp only [chunkEnd, if_neg h]
    exact Nat.mul_le_mul_right _ (by omega)

theorem chunkEnd_le (N K i : Nat) (hi : i < K) : chunkEnd N K i ≤ N := by
  by_cases h : i = K - 1
  · subst h
    simp only [chunkEnd, eq_self_iff_true, if_true]
    exact le_refl N
  · simp only [chunkEnd, if_neg h]
    exact le_trans (Nat.mul_le_mul_right _ (show i + 1 ≤ K - 1 by omega))
      (pred_mul_div_le N K)

theorem sortChunkStep_perm [LinearOrder T] (N K : Nat) (d : List T) (i : Nat)
    (hi : i < K) (hlen : d.length = N) :
    (sortChunkStep N K d i).Perm d := by
  have hse := chunkStart_le_chunkEnd N K i hi
  have heN := chunkEnd_le N K i hi
  have hsort_len : (List.insertionSort (· ≤ ·)
      (sliceOf d (chunkStart N K i) (chunkEnd N K i))).length
      = chunkEnd N K i - chunkStart N K i := by
    rw [List.length_insertionSort, sliceOf_length_of_le d _ _ hse (by omega)]
  rw [sortChunkStep, setRange, hsort_len,
    show chunkStart N K i + (chunkEnd N K i - chunkStart N K i) = chunkEnd N K i from by omega]
  conv_rhs => rw [← take_slice_drop d (chunkStart N K i) (chunkEnd N K i) hse]
  exact ((List.perm_insertionSort _ _).append_left _).append_right _

theorem sortChunks_perm [LinearOrder T] (data : List T) (K : Nat) :
    (sortChunks data K).Perm data := by
  rw [sortChunks]
  have main : ∀ (l : List Nat), (∀ i ∈ l, i < K) → ∀ d : List T, d.length = data.length →
      (l.foldl (sortChunkStep data.length K) d).Perm d := by
    intro l
    induction l with
    | nil => intro _ d _; exact List.Perm.refl d
    | cons i l ih =>
      intro hmem d hd
      rw [List.foldl_cons]
      have hstep : (sortChunkStep data.length K d i).Perm d :=
        sortChunkStep_perm data.length K d i (hmem i (List.mem_cons_self _ _)) hd
      exact (ih (fun j hj => hmem j (List.mem_cons_of_mem _ hj)) _
        (by rw [hstep.length_eq, hd])).trans hstep
  exact main (List.range K) (fun i hi => List.mem_range.mp hi) data rfl

theorem sortChunkStep_of_sorted [LinearOrder T] (N K : Nat) (d : List T) (i : Nat)
    (hi : i < K) (hlen : d.length = N) (hsort : List.Sorted (· ≤ ·) d) :
    sortChunkStep N K d i = d := by
  have hse := chunkStart_le_chunkEnd N K i hi
  have heN := chunkEnd_le N K i hi
  have hslice_sorted : List.Sorted (· ≤ ·)
      (sliceOf d (chunkStart N K i) (chunkEnd N K i)) :=
    List.Pairwise.sublist (sliceOf_sublist d _ _) hsort
  rw [sortChunkStep, hslice_sorted.insertionSort_eq, setRange,
    sliceOf_length_of_le d _ _ hse (by omega),
    show chunkStart N K i + (chunkEnd N K i - chunkStart N K i) = chunkEnd N K i from by omega]
  exact take_slice_drop d _ _ hse

theorem sortChunks_of_sorted [LinearOrder T] (data : List T) (K : Nat)
    (hsort : List.Sorted (· ≤ ·) data) : sortChunks data K = data := by
  rw [sortChunks]
  have main : ∀ (l : List Nat), (∀ i ∈ l, i < K) →
      l.foldl (sortChunkStep data.length K) data = data := by
    intro l
    induction l with
    | nil => intro _; rfl
    | cons i l ih =>
      intro hmem
      rw [List.foldl_cons,
        sortChunkStep_of_sorted data.length K data i (hmem i (List.mem_cons_self _ _)) rfl hsort]
      exact ih (fun j hj => hmem j (List.mem_cons_of_mem _ hj))
  exact main (List.range K) (fun i hi => List.mem_range.mp hi)

/-! ### Claims C1, C6, C7: parallel_sort -/

/-- Claim C1: for every dataset and every thread count `K ≥ 1`, after
`parallel_sort()` the dataset is non-decreasing under the non-strict `≤`, for
all lengths `N` including 0 and 1, whether or not `K` divides `N` evenly.  (The
10000-element async-dispatch threshold has no semantic effect: both branches of
`merge_sort_parallel` perform the same two recursive calls — see the doc
comment of `mergeSortRange` — so the embedding, and hence this theorem, covers
both sides of the threshold uniformly.) -/
theorem parallel_sort_sorts [LinearOrder T] (data : List T) (K : Nat) (hK : 1 ≤ K) :
    List.Sorted (· ≤ ·) (parallelSort data K) := by
  simp only [parallelSort]
  obtain ⟨mid, heq, hperm, hsort⟩ :=
    mergeSortRange_spec (sortChunks data K).length (sortChunks data K) 0
      (sortChunks data K).length (by omega) (by omega) (le_refl _)
  rw [List.take_zero, List.drop_length, List.nil_append, List.append_nil] at heq
  rw [heq]
  exact hsort

/-- Witness for C1 at a concrete input (the spec scenario `[5,3,1,4,2]`, K=2). -/
theorem parallel_sort_sorts_witness :
    1 ≤ 2 ∧ List.Sorted (· ≤ ·) (parallelSort [5, 3, 1, 4, 2] 2) :=
  ⟨by decide, parallel_sort_sorts [5, 3, 1, 4, 2] 2 (by decide)⟩

/-- Claim C6: for every dataset and every thread count `K ≥ 1`, the dataset
after `parallel_sort()` is a permutation of the dataset before the call — the
multiset of elements is preserved. -/
theorem parallel_sort_permutation [LinearOrder T] (data : List T) (K : Nat) (hK : 1 ≤ K) :
    (parallelSort data K).Perm data := by
  simp only [parallelSort]
  obtain ⟨mid, heq, hperm, hsort⟩ :=
    mergeSortRange_spec (sortChunks data K).length (sortChunks data K) 0
      (sortChunks data K).length (by omega) (by omega) (le_refl _)
  rw [List.take_zero, List.drop_length, List.nil_append, List.append_nil] at heq
  rw [heq]
  have hslice : sliceOf (sortChunks data K) 0 (sortChunks data K).length
      = sortChunks data K := by
    simp [sliceOf, List.take_length]
  rw [hslice] at hperm
  exact hperm.trans (sortChunks_perm data K)

/-- Witness for C6 at a concrete input. -/
theorem parallel_sort_permutation_witness :
    1 ≤ 2 ∧ (parallelSort [5, 3, 1, 4, 2] 2).Perm [5, 3, 1, 4, 2] :=
  ⟨by decide, parallel_sort_permutation [5, 3, 1, 4, 2] 2 (by decide)⟩

/-- Claim C7: `parallel_sort` is idempotent — on a dataset that is already
fully sorted (in particular one just produced by a previous `parallel_sort`
call, which is sorted by C1), calling `parallel_sort()` leaves the dataset
equal to what it was before the call. -/
theorem parallel_sort_idempotent [LinearOrder T] (data : List T) (K : Nat)
    (hsorted : List.Sorted (· ≤ ·) data) (hK : 1 ≤ K) :
    parallelSort data K = data := by
  simp only [parallelSort]
  rw [sortChunks_of_sorted data K hsorted]
  exact mergeSortRange_of_sorted data.length data 0 data.length (by omega) (by omega)
    (le_refl _) hsorted

/-- Witness for C7 at a concrete input (a sorted list with a duplicate). -/
theorem parallel_sort_idempotent_witness :
    (List.Sorted (· ≤ ·) [1, 2, 2, 5] ∧ 1 ≤ 3) ∧ parallelSort [1, 2, 2, 5] 3 = [1, 2, 2, 5] :=
  ⟨⟨by decide, by decide⟩, parallel_sort_idempotent [1, 2, 2, 5] 3 (by decide) (by decide)⟩

/-- Witness for C5 at a concrete input (N = 10 not divisible by K = 3). -/
theorem chunkRanges_partition_witness :
    1 ≤ 3 ∧ ((chunkRanges 10 3).length = 3 ∧
      ((chunkRanges 10 3).map (fun r => List.range' r.1 (r.2 - r.1))).flatten
        = List.range 10 ∧
      (∀ i, i < 3 - 1 → chunkEnd 10 3 i - chunkStart 10 3 i = 10 / 3) ∧
      chunkEnd 10 3 (3 - 1) - chunkStart 10 3 (3 - 1) = 10 - (3 - 1) * (10 / 3)) :=
  ⟨by decide, chunkRanges_partition 10 3 (by decide)⟩

end RGT
